import Mathlib

/-!
Verification model of the `simd_iter` crate.

The crate partitions a borrowed slice into an unaligned head (`prefix`),
an aligned middle of full-width SIMD vectors (`vectors`), and an
unaligned tail (`postfix`) via `<[T]>::as_simd`, then computes scalar
reductions (sum, product, min, max, bitwise and/or/xor) by padding the
ragged head/tail into full-width groups and folding lane-wise.

Modelling conventions:
* a SIMD vector of `LANES` lanes is a `List` of length `LANES`;
* `as_simd` (which delegates to `align_to`) splits at a point determined
  by the runtime address of the slice; we expose that as an explicit
  alignment-offset parameter `o` (the number of leading elements before
  the first address aligned for the vector type), with `o < LANES`,
  which is what `align_to` guarantees since the vector type's alignment
  divides its size;
* machine integers of width `w` are `Fin (2 ^ w)` (bit patterns);
  wrapping add/mul are the `Fin` ring operations, bitwise operations act
  on the underlying `Nat`, and the signed order is obtained through the
  two's-complement value map;
* the unsafe full-width load that reads past the end of a ragged
  remainder is modelled by an explicit list `g` of the machine-memory
  contents that follow the remainder, universally quantified in the
  theorems: whatever those bytes are, the lane mask must cancel them;
* the `NumCast` conversions into the element's mask-integer type (width
  `w`) are modelled by `castMask`, which fails (`none`, i.e. a panic of
  the Rust `unwrap`) once the value does not fit in the non-negative
  half of the signed mask type.
-/

namespace SimdIterModel

/-- Recursion core of `chunksOf`, structural on the fuel. -/
def chunksOfAux (N : ℕ) : ℕ → List α → List (List α)
  | _, [] => []
  | 0, _ :: _ => []
  | fuel + 1, x :: l => (x :: l).take N :: chunksOfAux N fuel ((x :: l).drop N)

/-- Splits a list into consecutive chunks of `N` elements (the aligned
middle region of `as_simd` reinterpreted as vectors), by structural
recursion on a fuel bounded by the list length (for `N ≥ 1` each step
consumes at least one element, so the fuel never runs out). -/
def chunksOf (N : ℕ) (l : List α) : List (List α) := chunksOfAux N l.length l

/-- Model of `<[T]>::as_simd::<LANES>` as called by
`simd_iter_with_width`: `o` is the element offset from the start of the
slice to the first address aligned for the vector type.  Mirrors
`align_to`: when the offset exceeds the length everything is the head
remainder; otherwise the slice is split at `o`, the middle takes as many
whole `N`-element vectors as fit, and the rest is the tail remainder. -/
def partitionAt (N o : ℕ) (xs : List α) : List α × List (List α) × List α :=
  if xs.length < o then (xs, [], [])
  else
    (xs.take o,
     chunksOf N ((xs.drop o).take ((xs.drop o).length / N * N)),
     (xs.drop o).drop ((xs.drop o).length / N * N))

/-- State of a `SimdIter`: the fields `pre`, `vecs`, `post` model the
borrowed slices `prefix`, `vectors`, `postfix`. -/
structure SimdIterSt (α : Type) where
  pre : List α
  vecs : List (List α)
  post : List α
deriving DecidableEq

/-- Model of `SimdIterable::simd_iter_with_width::<LANES>` at alignment
offset `o`. -/
def simd_iter_with_width (N o : ℕ) (xs : List α) : SimdIterSt α :=
  let p := partitionAt N o xs
  ⟨p.1, p.2.1, p.2.2⟩

/-- Model of `SimdIter::next`: pops the first vector, mirroring
`split_first` on the `vectors` slice. -/
def iterNext (s : List β) : Option β × List β :=
  match s with
  | [] => (none, [])
  | v :: rest => (some v, rest)

/-- Model of `SimdIter::nth`: if `n` is below the remaining length, drop
`n` vectors and step once; otherwise empty the iterator and yield
nothing. -/
def iterNth (n : ℕ) (s : List β) : Option β × List β :=
  if n < s.length then iterNext (s.drop n) else (none, [])

/-- Applies `n` single-step advances (`next`), discarding the yielded
items. -/
def iterSteps : ℕ → List β → List β
  | 0, s => s
  | n + 1, s => iterSteps n (iterNext s).2

/-- Model of `<T::Mask as NumCast>::from(i)` for a mask integer of width
`w`: the conversion from a nonnegative machine integer succeeds exactly
when the value fits in the signed type, i.e. is below `2 ^ (w - 1)`. -/
def castMask (w i : ℕ) : Option ℕ :=
  if i < 2 ^ (w - 1) then some i else none

/-- Model of the mask construction in `SimdIterPadded::next`: the iota
vector is built by casting each lane index, then compared lane-wise
against the cast of the remainder length `k`.  Any failing cast is a
panic (`none`).  Both casts land in the nonnegative half of the signed
mask type, where the signed order agrees with the `Nat` order. -/
def padMaskChecked (w N k : ℕ) : Option (List Bool) :=
  (List.range N).mapM fun i =>
    (castMask w i).bind fun ci => (castMask w k).map fun ck => decide (ci < ck)

/-- Lane mask with lane `i` true exactly when `i < k` (the value
`padMaskChecked` computes whenever its casts succeed). -/
def laneMask (N k : ℕ) : List Bool :=
  (List.range N).map fun i => decide (i < k)

/-- Model of the unsafe full-width load
`from_slice(from_raw_parts(values.as_ptr(), LANES))`: the first
`values.length` lanes are the remainder's elements and the rest come
from whatever memory `g` follows them. -/
def rawLoad (N : ℕ) (values g : List α) : List α :=
  (values ++ g).take N

/-- Model of `Mask::select`: lane-wise choice between two vectors. -/
def selectLanes : List Bool → List α → List α → List α
  | c :: m, x :: a, y :: b => (if c then x else y) :: selectLanes m a b
  | _, _, _ => []

/-- Model of the padded-group construction in `SimdIterPadded::next`
(and of `Vector::from_slice_padded`), with the mask casts already
resolved: select between the over-reading full-width load and a vector
splatted with the pad value, under the lane mask. -/
def from_slice_padded (N : ℕ) (values g : List α) (padv : α) : List α :=
  selectLanes (laneMask N values.length) (rawLoad N values g) (List.replicate N padv)

/-- Padded-group construction with the `NumCast` conversions of the mask
lanes kept explicit; `none` models a panic of the `unwrap` calls. -/
def from_slice_padded_checked (w N : ℕ) (values g : List α) (padv : α) :
    Option (List α) :=
  (padMaskChecked w N values.length).map fun m =>
    selectLanes m (rawLoad N values g) (List.replicate N padv)

/-- State of a `SimdIterPadded`: the wrapped `SimdIter` plus the pad
value. -/
structure SimdIterPaddedSt (α : Type) where
  inner : SimdIterSt α
  pad_value : α
deriving DecidableEq

/-- Model of `SimdIterPadded::next`: take the head remainder as a padded
group if it is nonempty (emptying it), else a body vector, else the tail
remainder as a padded group (emptying it), else finish.  The lists `gp`
and `gq` are the memory contents following the head and tail remainders
that the unsafe loads read. -/
def padNext (N : ℕ) (gp gq : List α) (s : SimdIterPaddedSt α) :
    Option (List α) × SimdIterPaddedSt α :=
  if s.inner.pre.isEmpty then
    match s.inner.vecs with
    | v :: rest => (some v, ⟨⟨s.inner.pre, rest, s.inner.post⟩, s.pad_value⟩)
    | [] =>
      if s.inner.post.isEmpty then (none, s)
      else
        (some (from_slice_padded N s.inner.post gq s.pad_value),
         ⟨⟨s.inner.pre, [], []⟩, s.pad_value⟩)
  else
    (some (from_slice_padded N s.inner.pre gp s.pad_value),
     ⟨⟨[], s.inner.vecs, s.inner.post⟩, s.pad_value⟩)

/-- Runs `padNext` up to `fuel` times, collecting the yielded groups in
order. -/
def padRun (N : ℕ) (gp gq : List α) : ℕ → SimdIterPaddedSt α → List (List α)
  | 0, _ => []
  | fuel + 1, s =>
    match padNext N gp gq s with
    | (none, _) => []
    | (some v, s1) => v :: padRun N gp gq fuel s1

/-- Closed form of the padded iteration: the padded head group (if the
head remainder is nonempty), the body vectors unchanged, then the padded
tail group (if the tail remainder is nonempty). -/
def paddedGroups (N : ℕ) (gp gq : List α) (s : SimdIterSt α) (padv : α) :
    List (List α) :=
  (if s.pre.isEmpty then [] else [from_slice_padded N s.pre gp padv])
    ++ s.vecs
    ++ (if s.post.isEmpty then [] else [from_slice_padded N s.post gq padv])

/-- Model of `Iterator::reduce(f)`: `none` on an empty iterator, else
the left fold of the tail onto the head. -/
def listReduce (f : α → α → α) : List α → Option α
  | [] => none
  | x :: l => some (l.foldl f x)

/-- Horizontal reduction of one vector's lanes (the `reduce_sum`,
`reduce_min`, ... intrinsics): combines the lanes left to right.  The
empty case never occurs since `LANES >= 1`; `e` is a dummy. -/
def hreduce (f : α → α → α) (e : α) : List α → α
  | [] => e
  | x :: l => l.foldl f x

/-- Left fold with an explicit initial element (the naive scalar
computation, and the workhorse of the equivalence proofs). -/
def mfold (f : α → α → α) (e : α) (l : List α) : α :=
  l.foldl f e

/-- Full vectorized reduction pipeline of the crate for one operation:
partition the input at width `N` and alignment offset `o`, wrap in
`SimdIterPadded` with pad value `padv`, drive the padded iterator to
exhaustion, lane-wise `reduce` the produced vectors with `f`, and
horizontally reduce the final vector. -/
def scalarReducePadded (f : α → α → α) (padv : α) (N o : ℕ)
    (gp gq xs : List α) : Option α :=
  (listReduce (fun a b => List.zipWith f a b)
      (padRun N gp gq ((simd_iter_with_width N o xs).vecs.length + 2)
        ⟨simd_iter_with_width N o xs, padv⟩)).map
    (hreduce f padv)

/-- NeZero instance for the modulus of the machine-integer model. -/
instance (w : ℕ) : NeZero (2 ^ w) := ⟨(Nat.two_pow_pos w).ne'⟩

/-- Unsigned value of a `w`-bit pattern (the order used by `simd_min` /
`simd_max` on the unsigned element types). -/
def uval (w : ℕ) (a : Fin (2 ^ w)) : ℤ := a.val

/-- Two's-complement signed value of a `w`-bit pattern (the order used
by `simd_min` / `simd_max` on the signed element types). -/
def sval (w : ℕ) (a : Fin (2 ^ w)) : ℤ :=
  if a.val < 2 ^ (w - 1) then (a.val : ℤ) else (a.val : ℤ) - 2 ^ w

/-- Lane-wise `simd_min` for the order embedded by `g`: the smaller
argument. -/
def pmin (g : α → ℤ) (a b : α) : α := if g a ≤ g b then a else b

/-- Lane-wise `simd_max` for the order embedded by `g`: the larger
argument. -/
def pmax (g : α → ℤ) (a b : α) : α := if g a ≤ g b then b else a

/-- Wrapping bitwise AND on `w`-bit patterns. -/
def fand (w : ℕ) (a b : Fin (2 ^ w)) : Fin (2 ^ w) :=
  ⟨a.val &&& b.val, lt_of_le_of_lt Nat.and_le_left a.isLt⟩

/-- Bitwise OR on `w`-bit patterns. -/
def flor (w : ℕ) (a b : Fin (2 ^ w)) : Fin (2 ^ w) :=
  ⟨a.val ||| b.val, Nat.or_lt_two_pow a.isLt b.isLt⟩

/-- Bitwise XOR on `w`-bit patterns. -/
def fxor (w : ℕ) (a b : Fin (2 ^ w)) : Fin (2 ^ w) :=
  ⟨a.val ^^^ b.val, Nat.xor_lt_two_pow a.isLt b.isLt⟩

/-- Pattern of `!T::zero()`, the pad value of the AND reduction: all
bits set. -/
def allOnes (w : ℕ) : Fin (2 ^ w) :=
  ⟨2 ^ w - 1, Nat.sub_lt (Nat.two_pow_pos w) one_pos⟩

/-- Pattern of the unsigned `T::MAX` (`min_identity` of the unsigned
types). -/
def umaxConst (w : ℕ) : Fin (2 ^ w) :=
  ⟨2 ^ w - 1, Nat.sub_lt (Nat.two_pow_pos w) one_pos⟩

/-- Pattern of the unsigned `T::MIN`, i.e. zero (`max_identity` of the
unsigned types). -/
def uminConst (w : ℕ) : Fin (2 ^ w) := ⟨0, Nat.two_pow_pos w⟩

/-- Pattern of the signed `T::MAX` (`min_identity` of the signed
types): `2 ^ (w - 1) - 1`. -/
def imaxConst (w : ℕ) : Fin (2 ^ w) :=
  ⟨2 ^ (w - 1) - 1, by
    have h1 := Nat.two_pow_pos (w - 1)
    have h2 : 2 ^ (w - 1) ≤ 2 ^ w := Nat.pow_le_pow_right (by omega) (by omega)
    omega⟩

/-- Pattern of the signed `T::MIN` (`max_identity` of the signed
types): `2 ^ (w - 1)` (the reduction modulo `2 ^ w` only matters for the
degenerate width zero). -/
def iminConst (w : ℕ) : Fin (2 ^ w) :=
  ⟨2 ^ (w - 1) % 2 ^ w, Nat.mod_lt _ (Nat.two_pow_pos w)⟩

/-- Model of `SimdIter::scalar_sum` on `w`-bit integer elements:
`self.padded_with(T::zero()).scalar_sum()`, with the latter reducing the
padded groups by lane-wise addition, horizontally adding the final
vector, and yielding zero when no group was produced. -/
def scalar_sum (w N o : ℕ) (gp gq xs : List (Fin (2 ^ w))) : Fin (2 ^ w) :=
  (scalarReducePadded (· + ·) 0 N o gp gq xs).getD 0

/-- Model of `SimdIter::scalar_product` on `w`-bit integer elements. -/
def scalar_product (w N o : ℕ) (gp gq xs : List (Fin (2 ^ w))) : Fin (2 ^ w) :=
  (scalarReducePadded (· * ·) 1 N o gp gq xs).getD 1

/-- Model of `SimdIter::scalar_min` on unsigned `w`-bit elements: pad
with `T::MAX`, reduce with lane-wise min, horizontally reduce. -/
def scalar_min_u (w N o : ℕ) (gp gq xs : List (Fin (2 ^ w))) :
    Option (Fin (2 ^ w)) :=
  scalarReducePadded (pmin (uval w)) (umaxConst w) N o gp gq xs

/-- Model of `SimdIter::scalar_max` on unsigned `w`-bit elements. -/
def scalar_max_u (w N o : ℕ) (gp gq xs : List (Fin (2 ^ w))) :
    Option (Fin (2 ^ w)) :=
  scalarReducePadded (pmax (uval w)) (uminConst w) N o gp gq xs

/-- Model of `SimdIter::scalar_min` on signed `w`-bit elements. -/
def scalar_min_s (w N o : ℕ) (gp gq xs : List (Fin (2 ^ w))) :
    Option (Fin (2 ^ w)) :=
  scalarReducePadded (pmin (sval w)) (imaxConst w) N o gp gq xs

/-- Model of `SimdIter::scalar_max` on signed `w`-bit elements. -/
def scalar_max_s (w N o : ℕ) (gp gq xs : List (Fin (2 ^ w))) :
    Option (Fin (2 ^ w)) :=
  scalarReducePadded (pmax (sval w)) (iminConst w) N o gp gq xs

/-- Model of `SimdIter::scalar_reduce_and` on `w`-bit integer elements:
pad with `!T::zero()`, reduce with lane-wise AND, horizontally
reduce. -/
def scalar_reduce_and (w N o : ℕ) (gp gq xs : List (Fin (2 ^ w))) :
    Option (Fin (2 ^ w)) :=
  scalarReducePadded (fand w) (allOnes w) N o gp gq xs

/-- Model of `SimdIter::scalar_reduce_or` on `w`-bit integer elements:
pad with `T::zero()`. -/
def scalar_reduce_or (w N o : ℕ) (gp gq xs : List (Fin (2 ^ w))) :
    Option (Fin (2 ^ w)) :=
  scalarReducePadded (flor w) 0 N o gp gq xs

/-- Model of `SimdIter::scalar_reduce_xor` on `w`-bit integer elements:
pad with `T::zero()`. -/
def scalar_reduce_xor (w N o : ℕ) (gp gq xs : List (Fin (2 ^ w))) :
    Option (Fin (2 ^ w)) :=
  scalarReducePadded (fxor w) 0 N o gp gq xs

/-- One-past-the-end index (relative to the start of the original
input) of the unsafe full-width load that `SimdIterPadded::next`
performs for the tail remainder: the load starts at the tail's offset
into the input and reads `N` elements unconditionally. -/
def postfixLoadEnd (N o : ℕ) (xs : List α) : ℕ :=
  (xs.length - (partitionAt N o xs).2.2.length) + N

/-! Chunk and partition lemmas. -/

theorem chunksOf_nil (N : ℕ) : chunksOf N ([] : List α) = [] := rfl

theorem chunksOfAux_fuel (N : ℕ) (hN : 0 < N) :
    ∀ (f1 f2 : ℕ) (l : List α), l.length ≤ f1 → l.length ≤ f2 →
      chunksOfAux N f1 l = chunksOfAux N f2 l := by
  intro f1
  induction f1 with
  | zero =>
    intro f2 l h1 h2
    have hl : l = [] := List.length_eq_zero.mp (Nat.le_zero.mp h1)
    subst hl
    cases f2 <;> rfl
  | succ f1 ih =>
    intro f2 l h1 h2
    cases l with
    | nil => cases f2 <;> rfl
    | cons x t =>
      cases f2 with
      | zero => simp at h2
      | succ f2 =>
        show (x :: t).take N :: chunksOfAux N f1 ((x :: t).drop N)
            = (x :: t).take N :: chunksOfAux N f2 ((x :: t).drop N)
        rw [ih f2 ((x :: t).drop N)
          (by simp only [List.length_drop, List.length_cons] at h1 ⊢; omega)
          (by simp only [List.length_drop, List.length_cons] at h2 ⊢; omega)]

theorem chunksOf_cons (N : ℕ) (x : α) (l : List α) :
    chunksOf (N + 1) (x :: l) =
      (x :: l).take (N + 1) :: chunksOf (N + 1) ((x :: l).drop (N + 1)) := by
  have h := chunksOfAux_fuel (N + 1) (Nat.succ_pos N) l.length
      ((x :: l).drop (N + 1)).length ((x :: l).drop (N + 1))
      (by simp only [List.length_drop, List.length_cons]; omega) le_rfl
  show (x :: l).take (N + 1) :: chunksOfAux (N + 1) l.length ((x :: l).drop (N + 1))
      = (x :: l).take (N + 1) :: chunksOf (N + 1) ((x :: l).drop (N + 1))
  rw [h]
  rfl

theorem chunksOf_flatten_aux (N : ℕ) :
    ∀ (n : ℕ) (l : List α), l.length ≤ n → (chunksOf (N + 1) l).flatten = l := by
  intro n
  induction n with
  | zero =>
    intro l hl
    have : l = [] := List.length_eq_zero.mp (Nat.le_zero.mp hl)
    simp [this, chunksOf_nil]
  | succ n ih =>
    intro l hl
    cases l with
    | nil => simp [chunksOf_nil]
    | cons x t =>
      rw [chunksOf_cons, List.flatten_cons,
        ih ((x :: t).drop (N + 1)) (by simp at hl ⊢; omega),
        List.take_append_drop]

theorem chunksOf_flatten (N : ℕ) (hN : 0 < N) (l : List α) :
    (chunksOf N l).flatten = l := by
  cases N with
  | zero => exact absurd hN (by omega)
  | succ N => exact chunksOf_flatten_aux N l.length l le_rfl

theorem chunksOf_mem_length_aux (N : ℕ) :
    ∀ (n : ℕ) (l : List α), l.length ≤ n → (N + 1) ∣ l.length →
      ∀ c ∈ chunksOf (N + 1) l, c.length = N + 1 := by
  intro n
  induction n with
  | zero =>
    intro l hl _ c hc
    have : l = [] := List.length_eq_zero.mp (Nat.le_zero.mp hl)
    simp [this, chunksOf_nil] at hc
  | succ n ih =>
    intro l hl hdvd c hc
    cases l with
    | nil => simp [chunksOf_nil] at hc
    | cons x t =>
      rw [chunksOf_cons] at hc
      have hlen : N + 1 ≤ (x :: t).length :=
        Nat.le_of_dvd (by simp) hdvd
      rcases List.mem_cons.mp hc with hc | hc
      · rw [hc, List.length_take]
        omega
      · refine ih ((x :: t).drop (N + 1)) (by simp at hl ⊢; omega) ?_ c hc
        rw [List.length_drop]
        exact Nat.dvd_sub' hdvd dvd_rfl

theorem chunksOf_mem_length (N : ℕ) (hN : 0 < N) (l : List α)
    (hdvd : N ∣ l.length) : ∀ c ∈ chunksOf N l, c.length = N := by
  cases N with
  | zero => exact absurd hN (by omega)
  | succ N => exact chunksOf_mem_length_aux N l.length l le_rfl hdvd

theorem partition_concat (N o : ℕ) (hN : 0 < N) (xs : List α) :
    (partitionAt N o xs).1 ++ (partitionAt N o xs).2.1.flatten ++
      (partitionAt N o xs).2.2 = xs := by
  unfold partitionAt
  split
  · simp
  · rw [chunksOf_flatten N hN, List.append_assoc, List.take_append_drop,
      List.take_append_drop]

theorem partition_pre_length (N o : ℕ) (ho : o < N) (xs : List α) :
    (partitionAt N o xs).1.length < N := by
  unfold partitionAt
  split
  · next h => exact lt_trans h ho
  · simp only [List.length_take]
    omega

theorem partition_post_length (N o : ℕ) (hN : 0 < N) (xs : List α) :
    (partitionAt N o xs).2.2.length < N := by
  unfold partitionAt
  split
  · simpa using hN
  · have h5 := Nat.div_add_mod' (xs.drop o).length N
    have hmod := Nat.mod_lt (xs.drop o).length hN
    simp only [List.length_drop] at h5 hmod ⊢
    omega

theorem partition_vec_mem (N o : ℕ) (hN : 0 < N) (xs : List α) :
    ∀ c ∈ (partitionAt N o xs).2.1, c.length = N := by
  unfold partitionAt
  split
  · simp
  · intro c hc
    refine chunksOf_mem_length N hN _ ?_ c hc
    rw [List.length_take]
    have hle : (xs.drop o).length / N * N ≤ (xs.drop o).length :=
      Nat.div_mul_le_self _ N
    rw [min_eq_left hle]
    exact ⟨(xs.drop o).length / N, Nat.mul_comm _ _⟩

theorem sum_map_length_const (N : ℕ) (L : List (List α))
    (h : ∀ c ∈ L, c.length = N) : (L.map List.length).sum = N * L.length := by
  induction L with
  | nil => simp
  | cons c t ih =>
    simp only [List.map_cons, List.sum_cons, List.length_cons,
      h c (by simp), ih fun d hd => h d (by simp [hd])]
    ring

theorem partition_length_sum (N o : ℕ) (hN : 0 < N) (xs : List α) :
    (partitionAt N o xs).1.length + N * (partitionAt N o xs).2.1.length +
      (partitionAt N o xs).2.2.length = xs.length := by
  have hlen := congrArg List.length (partition_concat N o hN xs)
  simp only [List.length_append, List.length_flatten] at hlen
  rw [sum_map_length_const N _ (partition_vec_mem N o hN xs)] at hlen
  omega

theorem partition_nil (N o : ℕ) :
    partitionAt N o ([] : List α) = ([], [], []) := by
  unfold partitionAt
  split
  · rfl
  · simp [chunksOf_nil]

/-- C2: for every input sequence and every width `N ≥ 1` (at any
alignment offset `o < N`, as guaranteed by `align_to`), the partition
produced by `simd_iter_with_width` satisfies `len(prefix) < N`,
`len(postfix) < N`, `len(prefix) + N * len(vectors) + len(postfix) =
len(input)`, and concatenating the head remainder, the flattened
vectors, and the tail remainder reproduces the input exactly. -/
theorem C2_partition_invariants (N o : ℕ) (hN : 1 ≤ N) (ho : o < N)
    (xs : List α) :
    (simd_iter_with_width N o xs).pre.length < N ∧
    (simd_iter_with_width N o xs).post.length < N ∧
    (simd_iter_with_width N o xs).pre.length +
        N * (simd_iter_with_width N o xs).vecs.length +
        (simd_iter_with_width N o xs).post.length = xs.length ∧
    (simd_iter_with_width N o xs).pre ++
        (simd_iter_with_width N o xs).vecs.flatten ++
        (simd_iter_with_width N o xs).post = xs :=
  ⟨partition_pre_length N o ho xs, partition_post_length N o hN xs,
    partition_length_sum N o hN xs, partition_concat N o hN xs⟩

/-- Witness for C2 at a concrete width, offset and input. -/
theorem C2_partition_invariants_witness :
    (simd_iter_with_width 4 1 [5, 6, 7, 8, 9, 10]).pre.length < 4 ∧
    (simd_iter_with_width 4 1 [5, 6, 7, 8, 9, 10]).post.length < 4 ∧
    (simd_iter_with_width 4 1 [5, 6, 7, 8, 9, 10]).pre.length +
        4 * (simd_iter_with_width 4 1 [5, 6, 7, 8, 9, 10]).vecs.length +
        (simd_iter_with_width 4 1 [5, 6, 7, 8, 9, 10]).post.length =
        [5, 6, 7, 8, 9, 10].length ∧
    (simd_iter_with_width 4 1 [5, 6, 7, 8, 9, 10]).pre ++
        (simd_iter_with_width 4 1 [5, 6, 7, 8, 9, 10]).vecs.flatten ++
        (simd_iter_with_width 4 1 [5, 6, 7, 8, 9, 10]).post =
        [5, 6, 7, 8, 9, 10] :=
  C2_partition_invariants 4 1 (by decide) (by decide) ([5, 6, 7, 8, 9, 10] : List ℕ)

/-! Claims C7 and C9: the split point of `as_simd` depends on the
runtime alignment offset, so neither the all-to-the-head convention nor
value-level idempotence of the partition holds as stated. -/

/-- Counterexample to C7 as stated: at width 4 and alignment offset 1,
the three-element input (shorter than the width, so no full group fits)
is split with one element in the head remainder and two in the tail
remainder — the leftover elements do not all go to the head, and the
tail is not empty. -/
theorem C7_counterexample :
    partitionAt 4 1 ([1, 2, 3] : List ℕ) = ([1], [], [2, 3]) ∧
    (partitionAt 4 1 ([1, 2, 3] : List ℕ)).2.2 ≠ [] := by
  decide

/-- C7 (amended): for every input in which no full-width group fits at
the current alignment offset (in particular every input shorter than
`N` whatever the offset), partitioning yields an empty vectors
sequence, with the first `min o (len input)` elements in the head
remainder and the rest in the tail remainder; all elements land in the
head exactly when the offset covers the whole input. -/
theorem C7_short_input_partition (N o : ℕ) (hN : 1 ≤ N) (ho : o < N)
    (xs : List α) (hshort : xs.length - min o xs.length < N) :
    partitionAt N o xs =
      (xs.take (min o xs.length), [], xs.drop (min o xs.length)) := by
  unfold partitionAt
  split
  · next h =>
    rw [min_eq_right (le_of_lt h), List.take_length, List.drop_length]
  · next h =>
    push_neg at h
    rw [min_eq_left h] at hshort ⊢
    have hL : (xs.drop o).length < N := by
      simp only [List.length_drop]
      omega
    rw [Nat.div_eq_of_lt hL]
    simp [chunksOf_nil]

/-- Witness for the amended C7 at a concrete width, offset and input. -/
theorem C7_short_input_partition_witness :
    partitionAt 4 1 ([1, 2, 3] : List ℕ) =
      (([1, 2, 3] : List ℕ).take (min 1 [1, 2, 3].length), [],
        ([1, 2, 3] : List ℕ).drop (min 1 [1, 2, 3].length)) :=
  C7_short_input_partition 4 1 (by decide) (by decide) [1, 2, 3] (by decide)

/-- Counterexample to C9 as stated: re-partitioning the concatenation
of a partition's parts at the same width but a different runtime
alignment offset yields a different partition (the split point moves
even though the underlying sequence is unchanged). -/
theorem C9_counterexample :
    partitionAt 4 0
        ((partitionAt 4 2 ([1, 2, 3, 4, 5, 6] : List ℕ)).1 ++
          (partitionAt 4 2 ([1, 2, 3, 4, 5, 6] : List ℕ)).2.1.flatten ++
          (partitionAt 4 2 ([1, 2, 3, 4, 5, 6] : List ℕ)).2.2) ≠
      partitionAt 4 2 ([1, 2, 3, 4, 5, 6] : List ℕ) := by
  decide

/-- C9 (amended): re-partitioning the element-wise concatenation of a
partition's own head remainder, flattened vectors, and tail remainder
at the same width and the same alignment offset reproduces the
identical partition. -/
theorem C9_repartition_same_offset (N o : ℕ) (hN : 1 ≤ N) (ho : o < N)
    (xs : List α) :
    partitionAt N o
        ((partitionAt N o xs).1 ++ (partitionAt N o xs).2.1.flatten ++
          (partitionAt N o xs).2.2) = partitionAt N o xs := by
  rw [partition_concat N o hN xs]

/-- Witness for the amended C9 at a concrete width, offset and input. -/
theorem C9_repartition_same_offset_witness :
    partitionAt 4 2
        ((partitionAt 4 2 ([1, 2, 3, 4, 5, 6] : List ℕ)).1 ++
          (partitionAt 4 2 ([1, 2, 3, 4, 5, 6] : List ℕ)).2.1.flatten ++
          (partitionAt 4 2 ([1, 2, 3, 4, 5, 6] : List ℕ)).2.2) =
      partitionAt 4 2 ([1, 2, 3, 4, 5, 6] : List ℕ) :=
  C9_repartition_same_offset 4 2 (by decide) (by decide) [1, 2, 3, 4, 5, 6]

/-! Claim C8: the skip-forward operation of the body iterator. -/

theorem iterSteps_eq_drop : ∀ (n : ℕ) (s : List β), iterSteps n s = s.drop n := by
  intro n
  induction n with
  | zero => intro s; rfl
  | succ n ih =>
    intro s
    cases s with
    | nil =>
      show iterSteps n [] = []
      rw [ih [], List.drop_nil]
    | cons x t =>
      show iterSteps n t = (x :: t).drop (n + 1)
      rw [ih t, List.drop_succ_cons]

/-- C8: for every iterator state and every count `n`, `nth` yields the
same result and leaves the iterator in the same state as `n` successive
single-step advances followed by one step; and when `n` is at least the
remaining length it returns no value and leaves the iterator exhausted
(empty), without any failure path. -/
theorem C8_nth_eq_steps (n : ℕ) (s : List β) :
    iterNth n s = iterNext (iterSteps n s) ∧
    (s.length ≤ n → iterNth n s = (none, [])) := by
  constructor
  · rw [iterSteps_eq_drop]
    unfold iterNth
    split
    · rfl
    · next h =>
      rw [List.drop_eq_nil_of_le (by omega)]
      rfl
  · intro h
    unfold iterNth
    rw [if_neg (by omega)]

/-- Witness for C8 at a concrete state, one in-range and one
past-the-end skip count. -/
theorem C8_nth_eq_steps_witness :
    iterNth 1 ([[1], [2], [3]] : List (List ℕ)) =
      iterNext (iterSteps 1 [[1], [2], [3]]) ∧
    iterNth 5 ([[1], [2], [3]] : List (List ℕ)) = (none, []) :=
  ⟨(C8_nth_eq_steps 1 [[1], [2], [3]]).1,
    (C8_nth_eq_steps 5 [[1], [2], [3]]).2 (by decide)⟩

/-! Claim C3: the unsafe full-width load for a ragged tail remainder
always reads `N` elements starting at the remainder, which runs past the
end of the caller's input whenever the remainder is shorter than `N` —
the implementation does not structurally keep the read inside the input
allocation. -/

/-- C3: concrete violation. At width 4 and alignment offset 0 the input
`[1, 2, 3, 4, 5]` leaves the tail remainder `[5]` at offset 4, and the
unsafe load of `SimdIterPadded::next` spans indices 4 to 8, three
elements past the end of the five-element input — outside the input
allocation whenever the input is exactly sized. -/
theorem C3_postfix_load_out_of_bounds :
    (partitionAt 4 0 ([1, 2, 3, 4, 5] : List ℕ)).2.2 = [5] ∧
    postfixLoadEnd 4 0 ([1, 2, 3, 4, 5] : List ℕ) = 8 ∧
    ([1, 2, 3, 4, 5] : List ℕ).length < postfixLoadEnd 4 0 [1, 2, 3, 4, 5] := by
  decide

/-! Lane mask, select and padded-load lemmas (claims C6 and C10). -/

theorem laneMask_zero (N : ℕ) : laneMask N 0 = List.replicate N false := by
  unfold laneMask
  rw [show (fun i => decide (i < 0)) = fun _ : ℕ => false from funext fun i => by simp]
  rw [List.map_const', List.length_range]

theorem laneMask_succ (N k : ℕ) :
    laneMask (N + 1) (k + 1) = true :: laneMask N k := by
  unfold laneMask
  rw [List.range_succ_eq_map]
  simp only [List.map_cons, List.map_map]
  congr 1
  · simp
  · exact List.map_congr_left fun i _ => by
      simp [Function.comp, Nat.succ_lt_succ_iff]

theorem selectLanes_replicate_false (n : ℕ) :
    ∀ (a b : List α), a.length = n → b.length = n →
      selectLanes (List.replicate n false) a b = b := by
  induction n with
  | zero =>
    intro a b ha hb
    rw [List.length_eq_zero.mp ha, List.length_eq_zero.mp hb]
    rfl
  | succ n ih =>
    intro a b ha hb
    cases a with
    | nil => simp at ha
    | cons x a =>
      cases b with
      | nil => simp at hb
      | cons y b =>
        rw [List.replicate_succ]
        show (if false then x else y) :: selectLanes (List.replicate n false) a b
            = y :: b
        rw [if_neg (by simp), ih a b (by simpa using ha) (by simpa using hb)]

theorem from_slice_padded_spec (padv : α) :
    ∀ (values : List α) (N : ℕ) (g : List α), values.length ≤ N →
      N ≤ values.length + g.length →
      from_slice_padded N values g padv =
        values ++ List.replicate (N - values.length) padv := by
  intro values
  induction values with
  | nil =>
    intro N g h1 h2
    unfold from_slice_padded rawLoad
    simp only [List.length_nil, Nat.sub_zero, List.nil_append]
    rw [laneMask_zero]
    exact selectLanes_replicate_false N _ _
      (by rw [List.length_take]; simp at h2; omega) (List.length_replicate _ _)
  | cons x vs ih =>
    intro N g h1 h2
    cases N with
    | zero => simp at h1
    | succ M =>
      unfold from_slice_padded rawLoad
      rw [show (x :: vs).length = vs.length + 1 from rfl, laneMask_succ,
        show (x :: vs) ++ g = x :: (vs ++ g) from rfl, List.take_succ_cons,
        List.replicate_succ]
      show (if true then x else padv) ::
          selectLanes (laneMask M vs.length) ((vs ++ g).take M)
            (List.replicate M padv)
          = (x :: vs) ++ List.replicate (M + 1 - (vs.length + 1)) padv
      rw [if_pos rfl]
      have h := ih M g (by simpa using h1)
        (by simp only [List.length_cons, List.length_append] at h2 ⊢; omega)
      unfold from_slice_padded rawLoad at h
      rw [h, Nat.succ_sub_succ]
      rfl

theorem castMask_eq (w i : ℕ) (h : i < 2 ^ (w - 1)) : castMask w i = some i := by
  unfold castMask
  rw [if_pos h]

theorem mapM_castMask (w k : ℕ) (hk : k < 2 ^ (w - 1)) :
    ∀ l : List ℕ, (∀ i ∈ l, i < 2 ^ (w - 1)) →
      (l.mapM fun i =>
          (castMask w i).bind fun ci =>
            (castMask w k).map fun ck => decide (ci < ck))
        = some (l.map fun i => decide (i < k)) := by
  intro l
  induction l with
  | nil => intro _; rfl
  | cons i t ih =>
    intro hmem
    rw [List.mapM_cons, ih fun j hj => hmem j (by simp [hj]),
      castMask_eq w i (hmem i (by simp)), castMask_eq w k hk]
    rfl

theorem padMaskChecked_eq (w N k : ℕ) (hw : 8 ≤ w) (hN : N ≤ 64)
    (hk : k ≤ 64) : padMaskChecked w N k = some (laneMask N k) := by
  have hbig : (64 : ℕ) < 2 ^ (w - 1) := by
    calc (64 : ℕ) < 128 := by norm_num
    _ = 2 ^ 7 := by norm_num
    _ ≤ 2 ^ (w - 1) := Nat.pow_le_pow_right (by norm_num) (by omega)
  unfold padMaskChecked laneMask
  exact mapM_castMask w k (by omega) _ fun i hi => by
    rw [List.mem_range] at hi
    omega

/-- C10: for every element type (whose mask integer is at least 8 bits
wide, as all are) and every supported lane count (at most 64), the
conversions in `SimdIterPadded::next` of each lane index `i < LANES`
and of the remainder length `k < LANES` into the mask integer type
succeed, so the `NumCast` unwrap calls in the padded-group construction
never panic and the checked mask equals the ideal lane mask. -/
theorem C10_mask_casts_succeed (w N k : ℕ) (hw : 8 ≤ w) (hN : N ≤ 64)
    (hk : k < N) :
    (∀ i, i < N → castMask w i = some i) ∧ castMask w k = some k ∧
      padMaskChecked w N k = some (laneMask N k) := by
  have hbig : (64 : ℕ) < 2 ^ (w - 1) := by
    calc (64 : ℕ) < 128 := by norm_num
    _ = 2 ^ 7 := by norm_num
    _ ≤ 2 ^ (w - 1) := Nat.pow_le_pow_right (by norm_num) (by omega)
  exact ⟨fun i hi => castMask_eq w i (by omega), castMask_eq w k (by omega),
    padMaskChecked_eq w N k hw hN (by omega)⟩

/-- Witness for C10 at width 8 and lane count 4. -/
theorem C10_mask_casts_succeed_witness :
    castMask 8 2 = some 2 ∧ castMask 8 3 = some 3 ∧
      padMaskChecked 8 4 3 = some (laneMask 4 3) :=
  ⟨(C10_mask_casts_succeed 8 4 3 (by decide) (by decide) (by decide)).1 2
      (by decide),
    (C10_mask_casts_succeed 8 4 3 (by decide) (by decide) (by decide)).2.1,
    (C10_mask_casts_succeed 8 4 3 (by decide) (by decide) (by decide)).2.2⟩

/-- C6: for every ragged remainder of length `k` with `0 < k < N`, every
pad value, and every contents `g` of the memory that the unsafe load
reads past the remainder's end, the materialized padded group has lanes
`0..k` equal to the remainder's elements in order and lanes `k..N` equal
exactly to the pad value. -/
theorem C6_padded_group_shape (w N : ℕ) (values g : List α) (padv : α)
    (hw : 8 ≤ w) (hN : N ≤ 64) (hk : 0 < values.length)
    (hkN : values.length < N) (hg : N ≤ values.length + g.length) :
    from_slice_padded_checked w N values g padv =
      some (values ++ List.replicate (N - values.length) padv) := by
  unfold from_slice_padded_checked
  rw [padMaskChecked_eq w N values.length hw hN (by omega)]
  have h := from_slice_padded_spec padv values N g (le_of_lt hkN) hg
  unfold from_slice_padded at h
  rw [Option.map_some', h]

/-- Witness for C6: a two-element remainder padded to width 4 with pad
value 5, over arbitrary trailing memory contents. -/
theorem C6_padded_group_shape_witness :
    from_slice_padded_checked 8 4 ([7, 9] : List ℕ) [100, 200, 300] 5 =
      some ([7, 9] ++ List.replicate (4 - [7, 9].length) 5) :=
  C6_padded_group_shape 8 4 [7, 9] [100, 200, 300] 5 (by decide) (by decide)
    (by decide) (by decide) (by decide)

/-! Padded-iterator run lemmas (claim C5). -/

theorem padRun_empty (N : ℕ) (gp gq : List α) (padv : α) :
    ∀ fuel, padRun N gp gq fuel ⟨⟨[], [], []⟩, padv⟩ = [] := by
  intro fuel
  cases fuel with
  | zero => rfl
  | succ fuel => rfl

theorem padRun_post (N : ℕ) (gp gq : List α) (padv : α) (post : List α)
    (fuel : ℕ) (hf : 1 ≤ fuel) :
    padRun N gp gq fuel ⟨⟨[], [], post⟩, padv⟩ =
      if post.isEmpty then [] else [from_slice_padded N post gq padv] := by
  cases fuel with
  | zero => omega
  | succ fuel =>
    cases post with
    | nil => rfl
    | cons y t =>
      show from_slice_padded N (y :: t) gq padv ::
          padRun N gp gq fuel ⟨⟨[], [], []⟩, padv⟩ = _
      rw [padRun_empty]
      rfl

theorem padRun_vecs (N : ℕ) (gp gq : List α) (padv : α) :
    ∀ (vecs : List (List α)) (post : List α) (fuel : ℕ),
      vecs.length + 1 ≤ fuel →
      padRun N gp gq fuel ⟨⟨[], vecs, post⟩, padv⟩ =
        vecs ++ (if post.isEmpty then [] else [from_slice_padded N post gq padv]) := by
  intro vecs
  induction vecs with
  | nil =>
    intro post fuel hf
    rw [padRun_post N gp gq padv post fuel (by omega)]
    exact (List.nil_append _).symm ▸ rfl
  | cons v vs ih =>
    intro post fuel hf
    cases fuel with
    | zero => omega
    | succ fuel =>
      show v :: padRun N gp gq fuel ⟨⟨[], vs, post⟩, padv⟩ = _
      rw [ih post fuel (by simpa using hf)]
      rfl

theorem padRun_eq (N : ℕ) (gp gq : List α) (s : SimdIterSt α) (padv : α)
    (fuel : ℕ) (hf : s.vecs.length + 2 ≤ fuel) :
    padRun N gp gq fuel ⟨s, padv⟩ = paddedGroups N gp gq s padv := by
  obtain ⟨pre, vecs, post⟩ := s
  cases pre with
  | nil =>
    rw [show (⟨⟨[], vecs, post⟩, padv⟩ : SimdIterPaddedSt α)
        = ⟨⟨[], vecs, post⟩, padv⟩ from rfl]
    rw [padRun_vecs N gp gq padv vecs post fuel (by simp at hf ⊢; omega)]
    unfold paddedGroups
    rfl
  | cons x t =>
    cases fuel with
    | zero => simp at hf
    | succ fuel =>
      show from_slice_padded N (x :: t) gp padv ::
          padRun N gp gq fuel ⟨⟨[], vecs, post⟩, padv⟩ = _
      rw [padRun_vecs N gp gq padv vecs post fuel (by simp at hf ⊢; omega)]
      unfold paddedGroups
      rfl

/-- C5: for every partition state and every pad value (and any contents
of the memory past the ragged remainders), driving the padded iterator
to exhaustion yields exactly the padded head group (if the head
remainder is nonempty), then every body vector unchanged in original
order, then the padded tail group (if the tail remainder is nonempty);
in particular the number of produced groups is `len(vectors)` plus one
for each nonempty remainder. -/
theorem C5_padded_iteration (N : ℕ) (gp gq : List α) (s : SimdIterSt α)
    (padv : α) (fuel : ℕ) (hf : s.vecs.length + 2 ≤ fuel) :
    padRun N gp gq fuel ⟨s, padv⟩ = paddedGroups N gp gq s padv ∧
    (padRun N gp gq fuel ⟨s, padv⟩).length =
      s.vecs.length + (if s.pre.isEmpty then 0 else 1) +
        (if s.post.isEmpty then 0 else 1) := by
  refine ⟨padRun_eq N gp gq s padv fuel hf, ?_⟩
  rw [padRun_eq N gp gq s padv fuel hf]
  unfold paddedGroups
  by_cases hp : s.pre.isEmpty <;> by_cases hq : s.post.isEmpty <;>
    simp [hp, hq]

/-- Witness for C5 at a concrete partition state with both remainders
nonempty. -/
theorem C5_padded_iteration_witness :
    padRun 2 [10, 11] [12, 13] 4
        ⟨⟨[1], [[2, 3], [4, 5]], [6]⟩, (0 : ℕ)⟩ =
      paddedGroups 2 [10, 11] [12, 13] ⟨[1], [[2, 3], [4, 5]], [6]⟩ 0 ∧
    (padRun 2 [10, 11] [12, 13] 4
        ⟨⟨[1], [[2, 3], [4, 5]], [6]⟩, (0 : ℕ)⟩).length =
      ([[2, 3], [4, 5]] : List (List ℕ)).length +
        (if ([1] : List ℕ).isEmpty then 0 else 1) +
        (if ([6] : List ℕ).isEmpty then 0 else 1) :=
  C5_padded_iteration 2 [10, 11] [12, 13] ⟨[1], [[2, 3], [4, 5]], [6]⟩ 0 4
    (by decide)

/-! Generic fold lemmas: for a commutative, associative operation with
identity `e` (the pad value of each reduction), lane-wise folding of
full-width groups followed by a horizontal reduce computes the fold of
all elements, and the pad lanes vanish. -/

theorem foldl_eq_mfold (f : α → α → α) (e : α)
    (hc : ∀ a b, f a b = f b a)
    (ha : ∀ a b c, f (f a b) c = f a (f b c))
    (hi : ∀ a, f e a = a) :
    ∀ (l : List α) (c : α), l.foldl f c = f c (mfold f e l) := by
  intro l
  induction l with
  | nil =>
    intro c
    show c = f c e
    rw [hc, hi]
  | cons x t ih =>
    intro c
    show t.foldl f (f c x) = f c (mfold f e (x :: t))
    have hm : mfold f e (x :: t) = f x (mfold f e t) := by
      show t.foldl f (f e x) = f x (mfold f e t)
      rw [ih (f e x), hi]
    rw [ih (f c x), hm, ha]

theorem mfold_cons (f : α → α → α) (e : α)
    (hc : ∀ a b, f a b = f b a)
    (ha : ∀ a b c, f (f a b) c = f a (f b c))
    (hi : ∀ a, f e a = a) (x : α) (l : List α) :
    mfold f e (x :: l) = f x (mfold f e l) := by
  show l.foldl f (f e x) = f x (mfold f e l)
  rw [foldl_eq_mfold f e hc ha hi l (f e x), hi]

theorem mfold_append (f : α → α → α) (e : α)
    (hc : ∀ a b, f a b = f b a)
    (ha : ∀ a b c, f (f a b) c = f a (f b c))
    (hi : ∀ a, f e a = a) (a b : List α) :
    mfold f e (a ++ b) = f (mfold f e a) (mfold f e b) := by
  show (a ++ b).foldl f e = _
  rw [List.foldl_append]
  exact foldl_eq_mfold f e hc ha hi b (a.foldl f e)

theorem mfold_replicate (f : α → α → α) (e : α) (hi : ∀ a, f e a = a) :
    ∀ n : ℕ, mfold f e (List.replicate n e) = e := by
  intro n
  induction n with
  | zero => rfl
  | succ n ih =>
    rw [List.replicate_succ]
    show (List.replicate n e).foldl f (f e e) = e
    rw [hi e]
    exact ih

theorem op_exchange (f : α → α → α)
    (hc : ∀ a b, f a b = f b a)
    (ha : ∀ a b c, f (f a b) c = f a (f b c))
    (a b c d : α) : f (f a b) (f c d) = f (f a c) (f b d) := by
  rw [ha, ← ha b c d, hc b c, ha c b d, ← ha a c (f b d)]

theorem mfold_zipWith (f : α → α → α) (e : α)
    (hc : ∀ a b, f a b = f b a)
    (ha : ∀ a b c, f (f a b) c = f a (f b c))
    (hi : ∀ a, f e a = a) :
    ∀ (a b : List α), a.length = b.length →
      mfold f e (List.zipWith f a b) = f (mfold f e a) (mfold f e b) := by
  intro a
  induction a with
  | nil =>
    intro b hb
    rw [List.length_eq_zero.mp hb.symm]
    show e = f e e
    rw [hi e]
  | cons x a ih =>
    intro b hb
    cases b with
    | nil => simp at hb
    | cons y b =>
      show mfold f e (f x y :: List.zipWith f a b) = _
      rw [mfold_cons f e hc ha hi, ih b (by simpa using hb),
        mfold_cons f e hc ha hi x a, mfold_cons f e hc ha hi y b]
      exact op_exchange f hc ha x y (mfold f e a) (mfold f e b)

theorem hreduce_eq_mfold (f : α → α → α) (e : α) (hi : ∀ a, f e a = a)
    (l : List α) (hl : l ≠ []) : hreduce f e l = mfold f e l := by
  cases l with
  | nil => exact absurd rfl hl
  | cons x t =>
    show t.foldl f x = t.foldl f (f e x)
    rw [hi x]

theorem listReduce_eq_mfold (f : α → α → α) (e : α) (hi : ∀ a, f e a = a)
    (l : List α) (hl : l ≠ []) : listReduce f l = some (mfold f e l) := by
  cases l with
  | nil => exact absurd rfl hl
  | cons x t =>
    show some (t.foldl f x) = some (t.foldl f (f e x))
    rw [hi x]

theorem foldl_zipWith_length (f : α → α → α) (N : ℕ) :
    ∀ (gs : List (List α)) (acc : List α), acc.length = N →
      (∀ g ∈ gs, g.length = N) →
      (gs.foldl (fun u v => List.zipWith f u v) acc).length = N := by
  intro gs
  induction gs with
  | nil => intro acc hacc _; exact hacc
  | cons g gs ih =>
    intro acc hacc hmem
    exact ih _
      (by rw [List.length_zipWith, hacc, hmem g (by simp)]; exact min_self N)
      fun d hd => hmem d (by simp [hd])

theorem foldl_zipWith_mfold (f : α → α → α) (e : α)
    (hc : ∀ a b, f a b = f b a)
    (ha : ∀ a b c, f (f a b) c = f a (f b c))
    (hi : ∀ a, f e a = a) (N : ℕ) :
    ∀ (gs : List (List α)) (acc : List α), acc.length = N →
      (∀ g ∈ gs, g.length = N) →
      mfold f e (gs.foldl (fun u v => List.zipWith f u v) acc) =
        f (mfold f e acc) (mfold f e gs.flatten) := by
  intro gs
  induction gs with
  | nil =>
    intro acc _ _
    show mfold f e acc = f (mfold f e acc) e
    rw [hc, hi]
  | cons g gs ih =>
    intro acc hacc hmem
    show mfold f e (gs.foldl _ (List.zipWith f acc g)) = _
    rw [ih (List.zipWith f acc g)
        (by rw [List.length_zipWith, hacc, hmem g (by simp)]; exact min_self N)
        (fun d hd => hmem d (by simp [hd])),
      mfold_zipWith f e hc ha hi acc g (by rw [hacc, hmem g (by simp)]),
      List.flatten_cons, mfold_append f e hc ha hi, ha]

theorem mfold_padded_part (f : α → α → α) (e : α)
    (hc : ∀ a b, f a b = f b a)
    (ha : ∀ a b c, f (f a b) c = f a (f b c))
    (hi : ∀ a, f e a = a) (N : ℕ) (l g : List α)
    (hl : l.length ≤ N) (hg : N ≤ l.length + g.length) :
    mfold f e (if l.isEmpty then [] else [from_slice_padded N l g e]).flatten =
      mfold f e l := by
  cases l with
  | nil => rfl
  | cons x t =>
    rw [if_neg (by simp), List.flatten_cons, List.flatten_nil, List.append_nil,
      from_slice_padded_spec e (x :: t) N g hl hg,
      mfold_append f e hc ha hi, mfold_replicate f e hi, hc _ e, hi]

/-- Central equivalence: for an operation `f` that is commutative and
associative and has the operation's pad value `e` as identity — which
each of the seven reductions satisfies on its integer element types —
the whole vectorized pipeline (partition, pad, lane-wise reduce,
horizontal reduce) computes exactly `Iterator::reduce(f)` of the
original scalars, for every width, alignment offset, over-read memory
contents, and input. -/
theorem scalarReducePadded_eq (f : α → α → α) (e : α)
    (hc : ∀ a b, f a b = f b a)
    (ha : ∀ a b c, f (f a b) c = f a (f b c))
    (hi : ∀ a, f e a = a)
    (N o : ℕ) (hN : 1 ≤ N) (ho : o < N)
    (gp gq xs : List α) (hgp : N ≤ gp.length) (hgq : N ≤ gq.length) :
    scalarReducePadded f e N o gp gq xs = listReduce f xs := by
  unfold scalarReducePadded
  set s := simd_iter_with_width N o xs with hs
  have hprelen : s.pre.length < N := partition_pre_length N o ho xs
  have hpostlen : s.post.length < N := partition_post_length N o hN xs
  have hvmem : ∀ c ∈ s.vecs, c.length = N := partition_vec_mem N o hN xs
  have hcat : s.pre ++ s.vecs.flatten ++ s.post = xs := partition_concat N o hN xs
  rw [padRun_eq N gp gq s e _ le_rfl]
  by_cases hx : xs = []
  · subst hx
    have hnil : s = ⟨[], [], []⟩ := by
      rw [hs]
      unfold simd_iter_with_width
      rw [partition_nil]
    rw [hnil]
    rfl
  · have hgroups_mem : ∀ c ∈ paddedGroups N gp gq s e, c.length = N := by
      intro c hcmem
      unfold paddedGroups at hcmem
      rcases List.mem_append.mp hcmem with hcm | hcm
      · rcases List.mem_append.mp hcm with hcm | hcm
        · by_cases hp : s.pre.isEmpty
          · rw [if_pos hp] at hcm
            simp at hcm
          · rw [if_neg hp] at hcm
            have hc1 : c = from_slice_padded N s.pre gp e := by simpa using hcm
            rw [hc1, from_slice_padded_spec e s.pre N gp (le_of_lt hprelen)
              (by omega)]
            simp only [List.length_append, List.length_replicate]
            omega
        · exact hvmem c hcm
      · by_cases hp : s.post.isEmpty
        · rw [if_pos hp] at hcm
          simp at hcm
        · rw [if_neg hp] at hcm
          have hc1 : c = from_slice_padded N s.post gq e := by simpa using hcm
          rw [hc1, from_slice_padded_spec e s.post N gq (le_of_lt hpostlen)
            (by omega)]
          simp only [List.length_append, List.length_replicate]
          omega
    have hgne : paddedGroups N gp gq s e ≠ [] := by
      intro hemp
      unfold paddedGroups at hemp
      obtain ⟨h12, hB⟩ := List.append_eq_nil.mp hemp
      obtain ⟨hA, hv⟩ := List.append_eq_nil.mp h12
      have hpre_nil : s.pre = [] := by
        by_cases hp : s.pre.isEmpty
        · exact List.isEmpty_iff.mp hp
        · rw [if_neg hp] at hA
          exact absurd hA (by simp)
      have hpost_nil : s.post = [] := by
        by_cases hp : s.post.isEmpty
        · exact List.isEmpty_iff.mp hp
        · rw [if_neg hp] at hB
          exact absurd hB (by simp)
      apply hx
      rw [← hcat, hpre_nil, hv, hpost_nil]
      rfl
    cases hgs : paddedGroups N gp gq s e with
    | nil => exact absurd hgs hgne
    | cons g0 rest =>
      show Option.map (hreduce f e)
          (some (rest.foldl (fun u v => List.zipWith f u v) g0)) = listReduce f xs
      rw [Option.map_some']
      have hg0len : g0.length = N := hgroups_mem g0 (by rw [hgs]; simp)
      have hrestmem : ∀ c ∈ rest, c.length = N := fun c hcm =>
        hgroups_mem c (by rw [hgs]; simp [hcm])
      have hflen : (rest.foldl (fun u v => List.zipWith f u v) g0).length = N :=
        foldl_zipWith_length f N rest g0 hg0len hrestmem
      rw [hreduce_eq_mfold f e hi _ (by
          intro hnil
          rw [hnil] at hflen
          simp at hflen
          omega),
        foldl_zipWith_mfold f e hc ha hi N rest g0 hg0len hrestmem,
        ← mfold_append f e hc ha hi, ← List.flatten_cons, ← hgs]
      unfold paddedGroups
      rw [List.flatten_append, List.flatten_append,
        mfold_append f e hc ha hi, mfold_append f e hc ha hi,
        mfold_padded_part f e hc ha hi N s.pre gp (le_of_lt hprelen) (by omega),
        mfold_padded_part f e hc ha hi N s.post gq (le_of_lt hpostlen) (by omega),
        ← mfold_append f e hc ha hi, ← mfold_append f e hc ha hi, hcat,
        listReduce_eq_mfold f e hi xs hx]

theorem listReduce_getD (f : α → α → α) (e : α) (hi : ∀ a, f e a = a)
    (l : List α) : (listReduce f l).getD e = l.foldl f e := by
  cases l with
  | nil => rfl
  | cons x t =>
    show t.foldl f x = t.foldl f (f e x)
    rw [hi x]

/-! Operation laws: each reduction's combiner is commutative and
associative and its pad value is an identity on the element type. -/

theorem pmin_comm (g : α → ℤ) (hg : Function.Injective g) (a b : α) :
    pmin g a b = pmin g b a := by
  unfold pmin
  rcases lt_trichotomy (g a) (g b) with h | h | h
  · rw [if_pos h.le, if_neg (by omega)]
  · rw [if_pos h.le, if_pos (le_of_eq h.symm)]
    exact hg h
  · rw [if_neg (by omega), if_pos h.le]

theorem pmin_assoc (g : α → ℤ) (hg : Function.Injective g) (a b c : α) :
    pmin g (pmin g a b) c = pmin g a (pmin g b c) := by
  unfold pmin
  split_ifs <;> first
    | rfl
    | (exfalso; omega)
    | (apply hg; omega)

theorem pmin_id (g : α → ℤ) (hg : Function.Injective g) (e : α)
    (htop : ∀ y, g y ≤ g e) (x : α) : pmin g e x = x := by
  unfold pmin
  split_ifs with h
  · exact hg (le_antisymm h (htop x))
  · rfl

theorem pmax_comm (g : α → ℤ) (hg : Function.Injective g) (a b : α) :
    pmax g a b = pmax g b a := by
  unfold pmax
  rcases lt_trichotomy (g a) (g b) with h | h | h
  · rw [if_pos h.le, if_neg (by omega)]
  · rw [if_pos h.le, if_pos (le_of_eq h.symm)]
    exact hg h.symm
  · rw [if_neg (by omega), if_pos h.le]

theorem pmax_assoc (g : α → ℤ) (hg : Function.Injective g) (a b c : α) :
    pmax g (pmax g a b) c = pmax g a (pmax g b c) := by
  unfold pmax
  split_ifs <;> first
    | rfl
    | (exfalso; omega)
    | (apply hg; omega)

theorem pmax_id (g : α → ℤ) (e : α) (hbot : ∀ y, g e ≤ g y) (x : α) :
    pmax g e x = x := by
  unfold pmax
  rw [if_pos (hbot x)]

theorem uval_injective (w : ℕ) : Function.Injective (uval w) := by
  intro a b h
  unfold uval at h
  exact Fin.ext (by exact_mod_cast h)

theorem uval_le_umax (w : ℕ) (y : Fin (2 ^ w)) :
    uval w y ≤ uval w (umaxConst w) := by
  unfold uval umaxConst
  have hy := y.isLt
  have hpos := Nat.two_pow_pos w
  have hle : y.val ≤ 2 ^ w - 1 := by omega
  exact_mod_cast hle

theorem umin_le_uval (w : ℕ) (y : Fin (2 ^ w)) :
    uval w (uminConst w) ≤ uval w y := by
  unfold uval uminConst
  exact_mod_cast Nat.zero_le y.val

theorem sval_injective (w : ℕ) : Function.Injective (sval w) := by
  intro a b h
  unfold sval at h
  have ha' := a.isLt
  have hb' := b.isLt
  have hai : ((a.val : ℤ)) < 2 ^ w := by exact_mod_cast ha'
  have hbi : ((b.val : ℤ)) < 2 ^ w := by exact_mod_cast hb'
  have ha0 : (0 : ℤ) ≤ (a.val : ℤ) := Int.natCast_nonneg _
  have hb0 : (0 : ℤ) ≤ (b.val : ℤ) := Int.natCast_nonneg _
  split_ifs at h
  · exact Fin.ext (by exact_mod_cast h)
  · exfalso
    omega
  · exfalso
    omega
  · refine Fin.ext ?_
    have : (a.val : ℤ) = (b.val : ℤ) := by omega
    exact_mod_cast this

theorem iminConst_val (w : ℕ) (hw : 1 ≤ w) :
    (iminConst w).val = 2 ^ (w - 1) := by
  unfold iminConst
  exact Nat.mod_eq_of_lt (Nat.pow_lt_pow_right (by norm_num) (by omega))

theorem two_pow_split (w : ℕ) (hw : 1 ≤ w) :
    (2 : ℤ) ^ w = 2 * 2 ^ (w - 1) := by
  have hw1 : w - 1 + 1 = w := Nat.succ_pred_eq_of_pos hw
  calc (2 : ℤ) ^ w = 2 ^ (w - 1 + 1) := by rw [hw1]
  _ = 2 ^ (w - 1) * 2 := pow_succ 2 (w - 1)
  _ = 2 * 2 ^ (w - 1) := mul_comm _ _

theorem sval_le_imax (w : ℕ) (hw : 1 ≤ w) (y : Fin (2 ^ w)) :
    sval w y ≤ sval w (imaxConst w) := by
  have hXpos : (0 : ℤ) < 2 ^ (w - 1) := pow_pos (by norm_num) _
  have hXnat : (1 : ℕ) ≤ 2 ^ (w - 1) := Nat.one_le_two_pow
  have htwo := two_pow_split w hw
  have hy := y.isLt
  have hyi : ((y.val : ℤ)) < 2 ^ w := by exact_mod_cast hy
  have hy0 : (0 : ℤ) ≤ (y.val : ℤ) := Int.natCast_nonneg _
  unfold sval imaxConst
  have hcast : ((2 ^ (w - 1) - 1 : ℕ) : ℤ) = 2 ^ (w - 1) - 1 := by
    push_cast [Nat.cast_sub hXnat]
    ring
  simp only []
  rw [if_pos (show (2 ^ (w - 1) - 1 : ℕ) < 2 ^ (w - 1) by omega), hcast]
  split_ifs with h
  · have : (y.val : ℤ) < 2 ^ (w - 1) := by exact_mod_cast h
    omega
  · omega

theorem imin_le_sval (w : ℕ) (hw : 1 ≤ w) (y : Fin (2 ^ w)) :
    sval w (iminConst w) ≤ sval w y := by
  have hXpos : (0 : ℤ) < 2 ^ (w - 1) := pow_pos (by norm_num) _
  have htwo := two_pow_split w hw
  have hy := y.isLt
  have hyi : ((y.val : ℤ)) < 2 ^ w := by exact_mod_cast hy
  have hy0 : (0 : ℤ) ≤ (y.val : ℤ) := Int.natCast_nonneg _
  unfold sval
  rw [iminConst_val w hw]
  rw [if_neg (by omega)]
  have hcast : ((2 ^ (w - 1) : ℕ) : ℤ) = 2 ^ (w - 1) := by push_cast; ring
  rw [hcast]
  split_ifs with h
  · omega
  · have : ¬ ((y.val : ℤ) < 2 ^ (w - 1)) := by
      intro hlt
      exact h (by exact_mod_cast hlt)
    omega

theorem fand_comm (w : ℕ) (a b : Fin (2 ^ w)) : fand w a b = fand w b a := by
  apply Fin.ext
  show a.val &&& b.val = b.val &&& a.val
  exact Nat.land_comm _ _

theorem fand_assoc (w : ℕ) (a b c : Fin (2 ^ w)) :
    fand w (fand w a b) c = fand w a (fand w b c) := by
  apply Fin.ext
  show a.val &&& b.val &&& c.val = a.val &&& (b.val &&& c.val)
  exact Nat.land_assoc _ _ _

theorem fand_id (w : ℕ) (x : Fin (2 ^ w)) : fand w (allOnes w) x = x := by
  apply Fin.ext
  show 2 ^ w - 1 &&& x.val = x.val
  apply Nat.eq_of_testBit_eq
  intro i
  rw [Nat.testBit_land, Nat.testBit_two_pow_sub_one]
  by_cases hi : i < w
  · simp [hi]
  · have hx : x.val < 2 ^ i :=
      lt_of_lt_of_le x.isLt (Nat.pow_le_pow_right (by norm_num) (by omega))
    simp [hi, Nat.testBit_lt_two_pow hx]

theorem flor_comm (w : ℕ) (a b : Fin (2 ^ w)) : flor w a b = flor w b a := by
  apply Fin.ext
  show a.val ||| b.val = b.val ||| a.val
  exact Nat.lor_comm _ _

theorem flor_assoc (w : ℕ) (a b c : Fin (2 ^ w)) :
    flor w (flor w a b) c = flor w a (flor w b c) := by
  apply Fin.ext
  show a.val ||| b.val ||| c.val = a.val ||| (b.val ||| c.val)
  exact Nat.lor_assoc _ _ _

theorem flor_id (w : ℕ) (x : Fin (2 ^ w)) : flor w 0 x = x := by
  apply Fin.ext
  show (0 : Fin (2 ^ w)).val ||| x.val = x.val
  rw [Fin.val_zero']
  exact Nat.zero_or _

theorem fxor_comm (w : ℕ) (a b : Fin (2 ^ w)) : fxor w a b = fxor w b a := by
  apply Fin.ext
  show a.val ^^^ b.val = b.val ^^^ a.val
  exact Nat.xor_comm _ _

theorem fxor_assoc (w : ℕ) (a b c : Fin (2 ^ w)) :
    fxor w (fxor w a b) c = fxor w a (fxor w b c) := by
  apply Fin.ext
  show a.val ^^^ b.val ^^^ c.val = a.val ^^^ (b.val ^^^ c.val)
  exact Nat.xor_assoc _ _ _

theorem fxor_id (w : ℕ) (x : Fin (2 ^ w)) : fxor w 0 x = x := by
  apply Fin.ext
  show (0 : Fin (2 ^ w)).val ^^^ x.val = x.val
  rw [Fin.val_zero']
  exact Nat.zero_xor _

/-! Claims C1 and C4: the seven reductions against the naive scalar
folds, on `w`-bit integer elements of both signednesses. -/

/-- C1: for every integer element type (any width `w ≥ 1`, both
signednesses — sum, product and the bitwise reductions act identically
on the bit patterns of signed and unsigned values, while min and max
are covered separately for the unsigned and the two's-complement
order), every lane width `N ≥ 1`, every alignment offset, every
contents of the over-read memory, and every input including the empty
one, the vectorized `scalar_sum`, `scalar_product`, `scalar_min`,
`scalar_max`, `scalar_reduce_and`, `scalar_reduce_or` and
`scalar_reduce_xor` return exactly the naive left-to-right sequential
scalar fold (`Iterator::reduce`, with identity seed for sum and
product) of the corresponding operation. -/
theorem C1_vectorized_equals_naive (w N o : ℕ) (hw : 1 ≤ w) (hN : 1 ≤ N)
    (ho : o < N) (gp gq xs : List (Fin (2 ^ w)))
    (hgp : N ≤ gp.length) (hgq : N ≤ gq.length) :
    scalar_sum w N o gp gq xs = xs.foldl (· + ·) 0 ∧
    scalar_product w N o gp gq xs = xs.foldl (· * ·) 1 ∧
    scalar_min_u w N o gp gq xs = listReduce (pmin (uval w)) xs ∧
    scalar_max_u w N o gp gq xs = listReduce (pmax (uval w)) xs ∧
    scalar_min_s w N o gp gq xs = listReduce (pmin (sval w)) xs ∧
    scalar_max_s w N o gp gq xs = listReduce (pmax (sval w)) xs ∧
    scalar_reduce_and w N o gp gq xs = listReduce (fand w) xs ∧
    scalar_reduce_or w N o gp gq xs = listReduce (flor w) xs ∧
    scalar_reduce_xor w N o gp gq xs = listReduce (fxor w) xs := by
  refine ⟨?_, ?_, ?_, ?_, ?_, ?_, ?_, ?_, ?_⟩
  · unfold scalar_sum
    rw [scalarReducePadded_eq (· + ·) 0 (fun a b => add_comm a b)
      (fun a b c => add_assoc a b c) (fun a => zero_add a)
      N o hN ho gp gq xs hgp hgq]
    exact listReduce_getD _ 0 (fun a => zero_add a) xs
  · unfold scalar_product
    rw [scalarReducePadded_eq (· * ·) 1 (fun a b => mul_comm a b)
      (fun a b c => mul_assoc a b c) (fun a => one_mul a)
      N o hN ho gp gq xs hgp hgq]
    exact listReduce_getD _ 1 (fun a => one_mul a) xs
  · unfold scalar_min_u
    exact scalarReducePadded_eq _ _ (pmin_comm _ (uval_injective w))
      (pmin_assoc _ (uval_injective w))
      (pmin_id _ (uval_injective w) _ (uval_le_umax w))
      N o hN ho gp gq xs hgp hgq
  · unfold scalar_max_u
    exact scalarReducePadded_eq _ _ (pmax_comm _ (uval_injective w))
      (pmax_assoc _ (uval_injective w))
      (pmax_id _ _ (umin_le_uval w))
      N o hN ho gp gq xs hgp hgq
  · unfold scalar_min_s
    exact scalarReducePadded_eq _ _ (pmin_comm _ (sval_injective w))
      (pmin_assoc _ (sval_injective w))
      (pmin_id _ (sval_injective w) _ (sval_le_imax w hw))
      N o hN ho gp gq xs hgp hgq
  · unfold scalar_max_s
    exact scalarReducePadded_eq _ _ (pmax_comm _ (sval_injective w))
      (pmax_assoc _ (sval_injective w))
      (pmax_id _ _ (imin_le_sval w hw))
      N o hN ho gp gq xs hgp hgq
  · unfold scalar_reduce_and
    exact scalarReducePadded_eq _ _ (fand_comm w) (fand_assoc w) (fand_id w)
      N o hN ho gp gq xs hgp hgq
  · unfold scalar_reduce_or
    exact scalarReducePadded_eq _ _ (flor_comm w) (flor_assoc w) (flor_id w)
      N o hN ho gp gq xs hgp hgq
  · unfold scalar_reduce_xor
    exact scalarReducePadded_eq _ _ (fxor_comm w) (fxor_assoc w) (fxor_id w)
      N o hN ho gp gq xs hgp hgq

/-- Witness for C1 on 8-bit elements at width 4, alignment offset 1, a
five-element input (ragged head of one element and ragged tail of no
full group), and arbitrary over-read memory contents. -/
theorem C1_vectorized_equals_naive_witness :
    scalar_sum 8 4 1 [10, 11, 12, 13] [14, 15, 16, 17] [3, 1, 4, 1, 5] =
      ([3, 1, 4, 1, 5] : List (Fin (2 ^ 8))).foldl (· + ·) 0 ∧
    scalar_product 8 4 1 [10, 11, 12, 13] [14, 15, 16, 17] [3, 1, 4, 1, 5] =
      ([3, 1, 4, 1, 5] : List (Fin (2 ^ 8))).foldl (· * ·) 1 ∧
    scalar_min_u 8 4 1 [10, 11, 12, 13] [14, 15, 16, 17] [3, 1, 4, 1, 5] =
      listReduce (pmin (uval 8)) [3, 1, 4, 1, 5] ∧
    scalar_max_u 8 4 1 [10, 11, 12, 13] [14, 15, 16, 17] [3, 1, 4, 1, 5] =
      listReduce (pmax (uval 8)) [3, 1, 4, 1, 5] ∧
    scalar_min_s 8 4 1 [10, 11, 12, 13] [14, 15, 16, 17] [3, 1, 4, 1, 5] =
      listReduce (pmin (sval 8)) [3, 1, 4, 1, 5] ∧
    scalar_max_s 8 4 1 [10, 11, 12, 13] [14, 15, 16, 17] [3, 1, 4, 1, 5] =
      listReduce (pmax (sval 8)) [3, 1, 4, 1, 5] ∧
    scalar_reduce_and 8 4 1 [10, 11, 12, 13] [14, 15, 16, 17] [3, 1, 4, 1, 5] =
      listReduce (fand 8) [3, 1, 4, 1, 5] ∧
    scalar_reduce_or 8 4 1 [10, 11, 12, 13] [14, 15, 16, 17] [3, 1, 4, 1, 5] =
      listReduce (flor 8) [3, 1, 4, 1, 5] ∧
    scalar_reduce_xor 8 4 1 [10, 11, 12, 13] [14, 15, 16, 17] [3, 1, 4, 1, 5] =
      listReduce (fxor 8) [3, 1, 4, 1, 5] :=
  C1_vectorized_equals_naive 8 4 1 (by decide) (by decide) (by decide)
    [10, 11, 12, 13] [14, 15, 16, 17] [3, 1, 4, 1, 5] (by decide) (by decide)

theorem scalarReducePadded_nil (f : α → α → α) (padv : α) (N o : ℕ)
    (gp gq : List α) : scalarReducePadded f padv N o gp gq [] = none := by
  unfold scalarReducePadded
  rw [show simd_iter_with_width N o ([] : List α) = ⟨[], [], []⟩ from by
    unfold simd_iter_with_width
    rw [partition_nil]]
  rfl

/-- C4: on the empty input, for every integer element width, every lane
width and alignment offset, and every over-read memory contents,
`scalar_sum` returns 0, `scalar_product` returns 1, and the min, max
and bitwise reductions each return absence (`none`), never an error. -/
theorem C4_empty_input (w N o : ℕ) (gp gq : List (Fin (2 ^ w))) :
    scalar_sum w N o gp gq [] = 0 ∧
    scalar_product w N o gp gq [] = 1 ∧
    scalar_min_u w N o gp gq [] = none ∧
    scalar_max_u w N o gp gq [] = none ∧
    scalar_min_s w N o gp gq [] = none ∧
    scalar_max_s w N o gp gq [] = none ∧
    scalar_reduce_and w N o gp gq [] = none ∧
    scalar_reduce_or w N o gp gq [] = none ∧
    scalar_reduce_xor w N o gp gq [] = none := by
  refine ⟨?_, ?_, ?_, ?_, ?_, ?_, ?_, ?_, ?_⟩
  · unfold scalar_sum
    rw [scalarReducePadded_nil]
    rfl
  · unfold scalar_product
    rw [scalarReducePadded_nil]
    rfl
  · exact scalarReducePadded_nil _ _ N o gp gq
  · exact scalarReducePadded_nil _ _ N o gp gq
  · exact scalarReducePadded_nil _ _ N o gp gq
  · exact scalarReducePadded_nil _ _ N o gp gq
  · exact scalarReducePadded_nil _ _ N o gp gq
  · exact scalarReducePadded_nil _ _ N o gp gq
  · exact scalarReducePadded_nil _ _ N o gp gq

end SimdIterModel
